import Mathlib

/-!
Shallow embedding of the skip-list key-value store from
`src/practical_applications/skiplist_kv_store.go`.

Modelling conventions:
* Byte slices (`[]byte`) are `List Nat` (a real Go byte is `< 256`; all
  operations below act uniformly, so theorems quantified over `List Nat`
  cover every real byte string).
* `float64` scores are modelled as `Int`.  The store only ever feeds
  `float64(hashBytes(key))` (a non-negative 64-bit value) into the engine and
  compares scores, so the exact integer value is a faithful model of the
  ordering behaviour; the sentinel head score `-1` is kept as the integer
  `-1`.
* `time.Time` / `time.Duration` are instants / durations in `Int`; each
  operation that reads the clock takes the current instant `now` explicitly.
* The random source `randSrc` is modelled by an explicit list of coin flips
  (`rand.Float64() < Probability` outcomes) consumed by `randomLevel`.
* The pointer structure of the skip list is represented by the level-0 chain:
  `elems` lists the elements in the order reached by following `Next[0]`
  pointers from the head, and each element records the length of its `Next`
  array in `lvl`.  The chain of forward pointers at level `i` is the
  sublist of elements whose `Next` array has length `> i` (`levelChain`).
  The `Prev` pointers and the `tail` field are derived views of this chain
  and are not stored separately.
* Locks (`sync.RWMutex`) guard the structures but do not change the
  sequential meaning of any single operation; they are dropped.  The
  one asynchronous effect, `go s.Delete(key)` in `Get`, is modelled by a
  Boolean "an asynchronous delete was spawned" component of the result,
  while the store component returned by `Get` is the store as it is when
  `Get` returns (the spawned delete has not been applied).
-/

/-- `MaxLevel = 32`, the structural ceiling on skip-list levels. -/
def MaxLevel : Nat := 32

/-- One skip-list node: key, value, score, the length of its `Next`
forward-pointer array (`lvl`), as in the Go `Element` struct. -/
structure Element where
  Key : List Nat
  Value : List Nat
  Score : Int
  lvl : Nat
deriving DecidableEq, Inhabited, Repr

/-- The skip list: sentinel head element, the level-0 chain of real elements
(in `Next[0]` order), the `length` counter and the current `level`. -/
structure SkipList where
  head : Element
  elems : List Element
  length : Nat
  level : Nat
deriving DecidableEq, Inhabited, Repr

/-- Go `NewElement`: a fresh element whose `Next` array has `level` slots. -/
def NewElement (key value : List Nat) (score : Int) (level : Nat) : Element :=
  { Key := key, Value := value, Score := score, lvl := level }

/-- Go `NewSkipList`: head sentinel `NewElement(nil, nil, -1, MaxLevel)`,
no elements, `length = 0`, `level = 1`. -/
def NewSkipList : SkipList :=
  { head := NewElement [] [] (-1) MaxLevel, elems := [], length := 0, level := 1 }

/-- Go `randomLevel` loop body: starting from `level`, increment while
`level < MaxLevel` and the next coin flip succeeds. -/
def randomLevelAux : Nat → List Bool → Nat
  | level, [] => level
  | level, c :: cs => if level < MaxLevel && c then randomLevelAux (level + 1) cs else level

/-- Go `(*SkipList).randomLevel`, with the stream of
`rand.Float64() < Probability` outcomes passed explicitly. -/
def randomLevel (coins : List Bool) : Nat := randomLevelAux 1 coins

/-- Strict byte-wise comparison `bytes.Compare(k1, k2) < 0`. -/
def keyLt : List Nat → List Nat → Bool
  | [], [] => false
  | [], _ :: _ => true
  | _ :: _, [] => false
  | a :: as, b :: bs => if a < b then true else if b < a then false else keyLt as bs

/-- The walk condition used by `Insert`/`Delete`/`Search`:
`s1 < s2 || (s1 == s2 && bytes.Compare(k1, k2) < 0)`, i.e. strict
lexicographic order on `(score, key)`. -/
def lexLt (s1 : Int) (k1 : List Nat) (s2 : Int) (k2 : List Nat) : Bool :=
  decide (s1 < s2) || (decide (s1 = s2) && keyLt k1 k2)

/-- Strict `(score, key)` order between two elements. -/
def pairLt (a b : Element) : Bool := lexLt a.Score a.Key b.Score b.Key

/-- Index (counting from the head) of the node a walk position denotes:
the head (`none`) sits before index `0`; position `some q` is the node at
index `q`, whose `Next[0]` successor is at index `q + 1`. -/
def posVal : Option Nat → Nat
  | none => 0
  | some q => q + 1

/-- First index in `l` of an element whose `Next` array reaches level `i`
(i.e. `i < lvl`): the node `head.Next[i]` points to when `l` is the whole
chain, and more generally the next level-`i` node. -/
def findLvl (i : Nat) : List Element → Option Nat
  | [] => none
  | e :: rest => if i < e.lvl then some 0 else (findLvl i rest).map (fun j => j + 1)

/-- The `Next[i]` pointer of the node at walk position `p`: the first later
index participating in level `i`. -/
def nextAt (l : List Element) (i : Nat) (p : Option Nat) : Option Nat :=
  (findLvl i (l.drop (posVal p))).map (fun j => j + posVal p)

/-- The inner loop of the downward walk at one level: advance along `Next[i]`
pointers while the next node satisfies `pred` (`fuel` bounds the number of
steps; `l.length` steps always suffice because positions strictly grow). -/
def walkLevelAux (l : List Element) (pred : Element → Bool) (i : Nat) :
    Nat → Option Nat → Option Nat
  | 0, p => p
  | Nat.succ fuel, p =>
    match nextAt l i p with
    | none => p
    | some j => if pred (l.getD j default) then walkLevelAux l pred i fuel (some j) else p

/-- One level of the downward walk. -/
def walkLevel (l : List Element) (pred : Element → Bool) (i : Nat) (p : Option Nat) :
    Option Nat :=
  walkLevelAux l pred i l.length p

/-- The downward walk `for i := sl.level - 1; i >= 0; i--`, starting at the
head: `walkDown l pred n p` runs the level walks at levels
`n-1, n-2, …, 0`. -/
def walkDown (l : List Element) (pred : Element → Bool) : Nat → Option Nat → Option Nat
  | 0, p => p
  | Nat.succ i, p => walkDown l pred i (walkLevel l pred i p)

/-- The chain of nodes linked at level `i`: those whose `Next` array has
more than `i` slots, in level-0 order. -/
def levelChain (l : List Element) (i : Nat) : List Element :=
  l.filter (fun e => decide (i < e.lvl))

/-- The non-overwrite branch of Go `(*SkipList).Insert`: draw a random level,
possibly raise the list level, and splice a fresh element in right after the
update-vector position `p`. -/
def SkipList.insertFresh (sl : SkipList) (key value : List Nat) (score : Int)
    (coins : List Bool) (p : Option Nat) : SkipList × Element :=
  let level := randomLevel coins
  let newLevel := if sl.level < level then level else sl.level
  let e := NewElement key value score level
  ({ sl with elems := sl.elems.insertIdx (posVal p) e,
             level := newLevel,
             length := sl.length + 1 }, e)

/-- Go `(*SkipList).Insert`: downward walk recording the update vector; if
`x.Next[0]` matches `(score, key)` exactly, overwrite its value in place and
return it; otherwise splice in a fresh element at the found position. -/
def SkipList.Insert (sl : SkipList) (key value : List Nat) (score : Int)
    (coins : List Bool) : SkipList × Element :=
  let p := walkDown sl.elems (fun e => lexLt e.Score e.Key score key) sl.level none
  match nextAt sl.elems 0 p with
  | some c =>
    let x := sl.elems.getD c default
    if x.Score == score && x.Key == key then
      let x2 := { x with Value := value }
      ({ sl with elems := sl.elems.set c x2 }, x2)
    else
      sl.insertFresh key value score coins p
  | none => sl.insertFresh key value score coins p

/-- The level-shrinking loop of Go `(*SkipList).Delete`:
`for sl.level > 1 && sl.head.Next[sl.level-1] == nil { sl.level-- }`
(`head.Next[lev-1] == nil` means no element participates in level
`lev - 1`). -/
def shrinkLevel (l : List Element) : Nat → Nat
  | 0 => 0
  | 1 => 1
  | Nat.succ (Nat.succ n) =>
    if (findLvl (Nat.succ n) l).isNone then shrinkLevel l (Nat.succ n)
    else Nat.succ (Nat.succ n)

/-- Go `(*SkipList).Delete`: downward walk; if `x = update[0].Next[0]` does
not match `(score, key)` exactly, return `false` without mutating; otherwise
unsplice `x` from every level, shrink the list level while the top chain is
empty, and decrement the length. -/
def SkipList.Delete (sl : SkipList) (key : List Nat) (score : Int) : SkipList × Bool :=
  let p := walkDown sl.elems (fun e => lexLt e.Score e.Key score key) sl.level none
  match nextAt sl.elems 0 p with
  | none => (sl, false)
  | some c =>
    let x := sl.elems.getD c default
    if x.Score == score && x.Key == key then
      let elems2 := sl.elems.eraseIdx c
      ({ sl with elems := elems2,
                 level := shrinkLevel elems2 sl.level,
                 length := sl.length - 1 }, true)
    else (sl, false)

/-- Go `(*SkipList).Search`: downward walk; return `x = x.Next[0]` if it
matches `(score, key)` exactly, else `nil`.  Reads only. -/
def SkipList.Search (sl : SkipList) (key : List Nat) (score : Int) : Option Element :=
  let p := walkDown sl.elems (fun e => lexLt e.Score e.Key score key) sl.level none
  match nextAt sl.elems 0 p with
  | none => none
  | some c =>
    let x := sl.elems.getD c default
    if x.Score == score && x.Key == key then some x else none

/-- The collection loop of Go `(*SkipList).Range`: follow `Next[0]` while the
score stays `≤ maxScore`, appending each node and breaking once
`limit > 0 && len(result) >= limit`. -/
def rangeLoop (maxScore limit : Int) : List Element → Nat → List Element
  | [], _ => []
  | x :: rest, count =>
    if decide (x.Score ≤ maxScore) then
      if decide (0 < limit) && decide (limit ≤ (count : Int) + 1) then [x]
      else x :: rangeLoop maxScore limit rest (count + 1)
    else []

/-- Go `(*SkipList).Range`: walk down advancing while `Next[i].Score <
minScore`, step to `x.Next[0]`, then collect while `score ≤ maxScore`,
stopping early at `limit` if positive.  Reads only (the source takes the
shared lock and performs no mutation). -/
def SkipList.Range (sl : SkipList) (minScore maxScore : Int) (limit : Int) :
    List Element :=
  let p := walkDown sl.elems (fun e => decide (e.Score < minScore)) sl.level none
  rangeLoop maxScore limit (levelChain (sl.elems.drop (posVal p)) 0) 0

/-- Go `(*SkipList).Length`: the stored element counter. -/
def SkipList.Length (sl : SkipList) : Nat := sl.length

/-- Go `(*SkipList).First`: `head.Next[0]`, the first node of the level-0
chain. -/
def SkipList.First (sl : SkipList) : Option Element := (levelChain sl.elems 0).head?

/-- Go `hashBytes`: FNV-1a over the key bytes in 64-bit arithmetic. -/
def hashBytes (data : List Nat) : Nat :=
  data.foldl (fun h b => ((h ^^^ (b % 2 ^ 64)) * 1099511628211) % 2 ^ 64)
    14695981039346656037

/-- The score the store derives for a key: `float64(hashBytes(key))`,
modelled by the exact hash value as an integer. -/
def storeScore (key : List Nat) : Int := (hashBytes key : Int)

/-- The TTL table `map[string]time.Time`, as an association list from key
bytes to absolute expiry instants. -/
abbrev TTLTable : Type := List (List Nat × Int)

/-- Go `delete(s.ttlData, string(key))`. -/
def ttlErase (m : TTLTable) (k : List Nat) : TTLTable :=
  List.filter (fun p => !(p.1 == k)) m

/-- Go `s.ttlData[string(key)] = t` (overwrite or create). -/
def ttlSet (m : TTLTable) (k : List Nat) (t : Int) : TTLTable :=
  ttlErase m k ++ [(k, t)]

/-- Go `expiry, exists := s.ttlData[string(key)]`. -/
def ttlLookup (m : TTLTable) (k : List Nat) : Option Int :=
  (List.find? (fun p => p.1 == k) m).map (fun p => p.2)

/-- The liveness test used by `Keys`/`SizeActive`/`Scan`:
`!exists || now.Before(expiry)`. -/
def ttlLive (m : TTLTable) (k : List Nat) (now : Int) : Bool :=
  match ttlLookup m k with
  | none => true
  | some expiry => decide (now < expiry)

/-- The Go `SkiplistKVStore`: the skip list plus the TTL table (the stop
channel only serves the reaper goroutine and has no effect on the modelled
operations). -/
structure SkiplistKVStore where
  data : SkipList
  ttlData : TTLTable
deriving DecidableEq, Inhabited, Repr

/-- Go `NewSkiplistKVStore` (the spawned `ttlCleaner` goroutine is the
background reaper and performs no synchronous work at construction). -/
def NewSkiplistKVStore : SkiplistKVStore :=
  { data := NewSkipList, ttlData := [] }

/-- Go `(*SkiplistKVStore).Set`: insert under score `hashBytes(key)` and
delete any TTL entry for the key. -/
def SkiplistKVStore.Set (s : SkiplistKVStore) (key value : List Nat)
    (coins : List Bool) : SkiplistKVStore :=
  { data := (s.data.Insert key value (storeScore key) coins).1,
    ttlData := ttlErase s.ttlData key }

/-- Go `(*SkiplistKVStore).SetWithTTL`: insert and record `now + ttl` in the
TTL table. -/
def SkiplistKVStore.SetWithTTL (s : SkiplistKVStore) (key value : List Nat)
    (ttl : Int) (now : Int) (coins : List Bool) : SkiplistKVStore :=
  { data := (s.data.Insert key value (storeScore key) coins).1,
    ttlData := ttlSet s.ttlData key (now + ttl) }

/-- Go `(*SkiplistKVStore).Get`.  Result: the store as `Get` leaves it
synchronously, the value (`none` = `ErrKeyNotFound`), and whether a
fire-and-forget `go s.Delete(key)` was spawned.  On a TTL entry with
`time.Now().After(expiry)` it spawns the lazy delete and returns not-found
immediately, without touching the skip list. -/
def SkiplistKVStore.Get (s : SkiplistKVStore) (key : List Nat) (now : Int) :
    SkiplistKVStore × Option (List Nat) × Bool :=
  match ttlLookup s.ttlData key with
  | some expiry =>
    if expiry < now then (s, none, true)
    else
      match s.data.Search key (storeScore key) with
      | none => (s, none, false)
      | some e => (s, some e.Value, false)
  | none =>
    match s.data.Search key (storeScore key) with
    | none => (s, none, false)
    | some e => (s, some e.Value, false)

/-- Go `(*SkiplistKVStore).Delete`: delete from the engine under the derived
score, clear the TTL entry, and report whether a removal occurred. -/
def SkiplistKVStore.Delete (s : SkiplistKVStore) (key : List Nat) :
    SkiplistKVStore × Bool :=
  let r := s.data.Delete key (storeScore key)
  ({ data := r.1, ttlData := ttlErase s.ttlData key }, r.2)

/-- Go `(*SkiplistKVStore).GetTTL`: look up the expiry; report
`(remaining, true)` if `remaining = expiry - now` is positive and
`(0, false)` otherwise.  The store component records that `GetTTL` performs
no mutation. -/
def SkiplistKVStore.GetTTL (s : SkiplistKVStore) (key : List Nat) (now : Int) :
    SkiplistKVStore × Int × Bool :=
  match ttlLookup s.ttlData key with
  | none => (s, 0, false)
  | some expiry =>
    let remaining := expiry - now
    if remaining ≤ 0 then (s, 0, false) else (s, remaining, true)

/-- Go `(*SkiplistKVStore).Size`: the engine's element counter, ignoring
TTLs. -/
def SkiplistKVStore.Size (s : SkiplistKVStore) : Nat := s.data.Length

/-- Byte-prefix test `bytes.HasPrefix(key, pfx)`. -/
def bytesHasPref : List Nat → List Nat → Bool
  | [], _ => true
  | _ :: _, [] => false
  | a :: as, b :: bs => a == b && bytesHasPref as bs

/-- The traversal loop of Go `(*SkiplistKVStore).Scan`: follow `Next[0]`
while `limit <= 0 || count < limit`; collect a key-value pair (and bump
`count`) for each node whose key has the prefix and whose TTL has not
passed. -/
def scanLoop (ttl : TTLTable) (pfx : List Nat) (limit : Int) (now : Int) :
    List Element → Nat → List (List Nat × List Nat)
  | [], _ => []
  | x :: rest, count =>
    if decide (limit ≤ 0) || decide ((count : Int) < limit) then
      if bytesHasPref pfx x.Key then
        if ttlLive ttl x.Key now then
          (x.Key, x.Value) :: scanLoop ttl pfx limit now rest (count + 1)
        else scanLoop ttl pfx limit now rest count
      else scanLoop ttl pfx limit now rest count
    else []

/-- Go `(*SkiplistKVStore).Scan`: full level-0 traversal from `First()`,
collecting live prefix-matching entries up to `limit` (`0` = unlimited).
The Go result is a `map`; the model returns the entries in traversal
order. -/
def SkiplistKVStore.Scan (s : SkiplistKVStore) (pfx : List Nat) (limit : Int)
    (now : Int) : List (List Nat × List Nat) :=
  scanLoop s.ttlData pfx limit now (levelChain s.data.elems 0) 0

/-- The skip-list representation invariant: the level-0 chain is strictly
increasing in `(score, key)`, every element participates in at least level 0
(its `Next` array is non-empty), and the current level is at least 1. -/
def SLInv (sl : SkipList) : Prop :=
  List.Pairwise (fun a b => pairLt a b = true) sl.elems ∧
    (∀ e ∈ sl.elems, 1 ≤ e.lvl) ∧ 1 ≤ sl.level

instance (sl : SkipList) : Decidable (SLInv sl) := by
  unfold SLInv; infer_instance

/-- A walk position is "good" when it indexes a node satisfying the walk
condition (the head position is always good). -/
def WalkGood (l : List Element) (pred : Element → Bool) : Option Nat → Prop
  | none => True
  | some q => q < l.length ∧ pred (l.getD q default) = true

/-- The elements of `sl.elems` are strictly increasing in `(score, key)`. -/
def Sorted (l : List Element) : Prop := List.Pairwise (fun a b => pairLt a b = true) l

/-- One engine-level mutation, with its random coins. -/
inductive SLOp where
  | ins (key value : List Nat) (score : Int) (coins : List Bool)
  | del (key : List Nat) (score : Int)
deriving DecidableEq

/-- Apply one engine mutation. -/
def applyOp (sl : SkipList) : SLOp → SkipList
  | SLOp.ins k v s c => (sl.Insert k v s c).1
  | SLOp.del k s => (sl.Delete k s).1

/-- Apply a sequence of engine mutations in order. -/
def applyOps (ops : List SLOp) (sl : SkipList) : SkipList := ops.foldl applyOp sl

/-- A sample one-element valid skip list (used to instantiate theorems). -/
def sampleList1 : SkipList :=
  { head := NewElement [] [] (-1) MaxLevel,
    elems := [{ Key := [1], Value := [2], Score := 4, lvl := 1 }],
    length := 1, level := 1 }

/-- A sample two-element valid skip list (used to instantiate theorems). -/
def sampleList2 : SkipList :=
  { head := NewElement [] [] (-1) MaxLevel,
    elems := [{ Key := [1], Value := [10], Score := 2, lvl := 1 },
              { Key := [2], Value := [20], Score := 5, lvl := 2 }],
    length := 2, level := 2 }

/-- A sample store holding one TTL entry, expiring at instant 5 (used to
instantiate theorems). -/
def sampleTTLStore : SkiplistKVStore :=
  { data := NewSkipList, ttlData := [([1], 5)] }

/-! ### The `(score, key)` comparison is a strict linear order -/

theorem keyLt_irrefl (k : List Nat) : keyLt k k = false := by
  induction k with
  | nil => rfl
  | cons a as ih => simp [keyLt, ih]

theorem keyLt_trans (a : List Nat) :
    ∀ b c, keyLt a b = true → keyLt b c = true → keyLt a c = true := by
  induction a with
  | nil =>
    intro b c h1 h2
    cases c with
    | nil =>
      cases b with
      | nil => exact h1
      | cons x xs => simp [keyLt] at h2
    | cons x xs => simp [keyLt]
  | cons a as ih =>
    intro b c h1 h2
    cases b with
    | nil => simp [keyLt] at h1
    | cons b bs =>
      cases c with
      | nil => simp [keyLt] at h2
      | cons c cs =>
        simp only [keyLt] at h1 h2 ⊢
        rcases Nat.lt_trichotomy a b with hab | hab | hab
        · rcases Nat.lt_trichotomy b c with hbc | hbc | hbc
          · rw [if_pos (by omega : a < c)]
          · subst hbc
            rw [if_pos hab]
          · rw [if_neg (by omega), if_pos hbc] at h2
            exact absurd h2 (by simp)
        · subst hab
          rw [if_neg (Nat.lt_irrefl a), if_neg (Nat.lt_irrefl a)] at h1
          rcases Nat.lt_trichotomy a c with hac | hac | hac
          · rw [if_pos hac]
          · subst hac
            rw [if_neg (Nat.lt_irrefl a), if_neg (Nat.lt_irrefl a)] at h2 ⊢
            exact ih bs cs h1 h2
          · rw [if_neg (by omega), if_pos hac] at h2
            exact absurd h2 (by simp)
        · rw [if_neg (by omega), if_pos hab] at h1
          exact absurd h1 (by simp)

theorem keyLt_conn (a : List Nat) :
    ∀ b, keyLt a b = false → keyLt b a = false → a = b := by
  induction a with
  | nil =>
    intro b h1 _
    cases b with
    | nil => rfl
    | cons x xs => simp [keyLt] at h1
  | cons a as ih =>
    intro b h1 h2
    cases b with
    | nil => simp [keyLt] at h2
    | cons b bs =>
      simp only [keyLt] at h1 h2
      rcases Nat.lt_trichotomy a b with hab | hab | hab
      · rw [if_pos hab] at h1
        exact absurd h1 (by simp)
      · subst hab
        rw [if_neg (Nat.lt_irrefl a), if_neg (Nat.lt_irrefl a)] at h1 h2
        rw [ih bs h1 h2]
      · rw [if_pos hab] at h2
        exact absurd h2 (by simp)

theorem lexLt_irrefl (s : Int) (k : List Nat) : lexLt s k s k = false := by
  simp [lexLt, keyLt_irrefl]

theorem lexLt_trans {s1 s2 s3 : Int} {k1 k2 k3 : List Nat}
    (h1 : lexLt s1 k1 s2 k2 = true) (h2 : lexLt s2 k2 s3 k3 = true) :
    lexLt s1 k1 s3 k3 = true := by
  simp only [lexLt, Bool.or_eq_true, Bool.and_eq_true, decide_eq_true_eq] at h1 h2 ⊢
  rcases h1 with h1 | ⟨he1, hk1⟩
  · rcases h2 with h2 | ⟨he2, hk2⟩
    · exact Or.inl (by omega)
    · exact Or.inl (by omega)
  · rcases h2 with h2 | ⟨he2, hk2⟩
    · exact Or.inl (by omega)
    · exact Or.inr ⟨by omega, keyLt_trans k1 k2 k3 hk1 hk2⟩

theorem lexLt_conn {s1 s2 : Int} {k1 k2 : List Nat}
    (h1 : lexLt s1 k1 s2 k2 = false) (h2 : lexLt s2 k2 s1 k1 = false) :
    s1 = s2 ∧ k1 = k2 := by
  simp only [lexLt, Bool.or_eq_false_iff, Bool.and_eq_false_iff,
    decide_eq_false_iff_not] at h1 h2
  obtain ⟨hlt1, h1⟩ := h1
  obtain ⟨hlt2, h2⟩ := h2
  have hs : s1 = s2 := by omega
  subst hs
  rcases h1 with h1 | h1
  · omega
  · rcases h2 with h2 | h2
    · omega
    · exact ⟨rfl, keyLt_conn k1 k2 (by simpa using h1) (by simpa using h2)⟩

theorem lexLt_score_le {s1 s2 : Int} {k1 k2 : List Nat}
    (h : lexLt s1 k1 s2 k2 = true) : s1 ≤ s2 := by
  simp only [lexLt, Bool.or_eq_true, Bool.and_eq_true, decide_eq_true_eq] at h
  rcases h with h | ⟨h, _⟩ <;> omega

theorem pairLt_trans {a b c : Element} (h1 : pairLt a b = true)
    (h2 : pairLt b c = true) : pairLt a c = true :=
  lexLt_trans h1 h2

/-! ### Characterising the downward walk -/

theorem findLvl_some {i : Nat} {l : List Element} {j : Nat} (h : findLvl i l = some j) :
    j < l.length ∧ i < (l.getD j default).lvl := by
  induction l generalizing j with
  | nil => simp [findLvl] at h
  | cons e rest ih =>
    by_cases he : i < e.lvl
    · simp only [findLvl, if_pos he, Option.some.injEq] at h
      subst h
      simpa [List.getD] using he
    · simp only [findLvl, if_neg he, Option.map_eq_some'] at h
      obtain ⟨j0, hj0, rfl⟩ := h
      obtain ⟨h1, h2⟩ := ih hj0
      constructor
      · simpa using h1
      · simpa [List.getD] using h2

theorem findLvl_none {i : Nat} {l : List Element} (h : findLvl i l = none) :
    ∀ e ∈ l, ¬ i < e.lvl := by
  induction l with
  | nil => simp
  | cons e rest ih =>
    by_cases he : i < e.lvl
    · simp [findLvl, if_pos he] at h
    · simp only [findLvl, if_neg he, Option.map_eq_none'] at h
      intro x hx
      rcases List.mem_cons.1 hx with rfl | hx
      · exact he
      · exact ih h x hx

theorem findLvl_zero {l : List Element} (hl : ∀ e ∈ l, 1 ≤ e.lvl) :
    findLvl 0 l = if l.length = 0 then none else some 0 := by
  cases l with
  | nil => rfl
  | cons e rest =>
    have : 0 < e.lvl := hl e (List.mem_cons_self e rest)
    simp [findLvl, this]

theorem nextAt_some {l : List Element} {i : Nat} {p : Option Nat} {j : Nat}
    (h : nextAt l i p = some j) :
    posVal p ≤ j ∧ j < l.length ∧ i < (l.getD j default).lvl := by
  simp only [nextAt, Option.map_eq_some'] at h
  obtain ⟨j0, hj0, rfl⟩ := h
  obtain ⟨h1, h2⟩ := findLvl_some hj0
  have hlen : (l.drop (posVal p)).length = l.length - posVal p := by simp
  rw [hlen] at h1
  have hpv : posVal p ≤ l.length := by omega
  refine ⟨by omega, by omega, ?_⟩
  have hb1 : j0 < (l.drop (posVal p)).length := by simp; omega
  have hb2 : posVal p + j0 < l.length := by omega
  have hget : (l.drop (posVal p)).getD j0 default = l.getD (posVal p + j0) default := by
    rw [List.getD_eq_getElem _ _ hb1, List.getD_eq_getElem _ _ hb2]
    exact List.getElem_drop _
  rw [hget, Nat.add_comm] at h2
  exact h2

theorem nextAt_none_of_ge {l : List Element} {i : Nat} {p : Option Nat}
    (h : l.length ≤ posVal p) : nextAt l i p = none := by
  simp [nextAt, List.drop_eq_nil_of_le h, findLvl]

theorem nextAt_zero {l : List Element} (hl : ∀ e ∈ l, 1 ≤ e.lvl) (p : Option Nat) :
    nextAt l 0 p = if posVal p < l.length then some (posVal p) else none := by
  have hzero : findLvl 0 (l.drop (posVal p)) =
      if (l.drop (posVal p)).length = 0 then none else some 0 :=
    findLvl_zero (fun e he => hl e (List.mem_of_mem_drop he))
  by_cases hlt : posVal p < l.length
  · rw [if_pos hlt]
    have hne : ¬ (l.drop (posVal p)).length = 0 := by simp; omega
    have hne2 : ¬ l.length - posVal p = 0 := by omega
    simp [nextAt, hzero, hne, hne2]
  · rw [if_neg hlt]
    exact nextAt_none_of_ge (by omega)

theorem walkLevelAux_good {l : List Element} {pred : Element → Bool} {i : Nat} :
    ∀ (fuel : Nat) (p : Option Nat), WalkGood l pred p →
      WalkGood l pred (walkLevelAux l pred i fuel p) := by
  intro fuel
  induction fuel with
  | zero => intro p hp; exact hp
  | succ fuel ih =>
    intro p hp
    simp only [walkLevelAux]
    cases hn : nextAt l i p with
    | none => exact hp
    | some j =>
      show WalkGood l pred
        (if pred (l.getD j default) = true then walkLevelAux l pred i fuel (some j) else p)
      by_cases hj : pred (l.getD j default) = true
      · rw [if_pos hj]
        exact ih (some j) ⟨(nextAt_some hn).2.1, hj⟩
      · rw [if_neg hj]
        exact hp

theorem walkLevelAux_fix {l : List Element} {pred : Element → Bool} {i : Nat} :
    ∀ (fuel : Nat) (p : Option Nat), l.length ≤ fuel + posVal p →
      nextAt l i (walkLevelAux l pred i fuel p) = none ∨
        ∃ j, nextAt l i (walkLevelAux l pred i fuel p) = some j ∧
          pred (l.getD j default) = false := by
  intro fuel
  induction fuel with
  | zero =>
    intro p hp
    exact Or.inl (nextAt_none_of_ge (by simpa using hp))
  | succ fuel ih =>
    intro p hp
    cases hn : nextAt l i p with
    | none =>
      simp only [walkLevelAux, hn]
      exact Or.inl trivial
    | some j =>
      simp only [walkLevelAux, hn]
      by_cases hj : pred (l.getD j default) = true
      · rw [if_pos hj]
        refine ih (some j) ?_
        have := (nextAt_some hn).1
        simp only [posVal] at *
        omega
      · rw [if_neg hj]
        exact Or.inr ⟨j, hn, by simpa using hj⟩

theorem walkLevel_good {l : List Element} {pred : Element → Bool} {i : Nat}
    {p : Option Nat} (hp : WalkGood l pred p) :
    WalkGood l pred (walkLevel l pred i p) :=
  walkLevelAux_good l.length p hp

theorem walkLevel_fix {l : List Element} {pred : Element → Bool} {i : Nat}
    (p : Option Nat) :
    nextAt l i (walkLevel l pred i p) = none ∨
      ∃ j, nextAt l i (walkLevel l pred i p) = some j ∧
        pred (l.getD j default) = false :=
  walkLevelAux_fix l.length p (by omega)

theorem walkDown_good {l : List Element} {pred : Element → Bool} :
    ∀ (n : Nat) (p : Option Nat), WalkGood l pred p →
      WalkGood l pred (walkDown l pred n p) := by
  intro n
  induction n with
  | zero => intro p hp; exact hp
  | succ n ih =>
    intro p hp
    exact ih (walkLevel l pred n p) (walkLevel_good hp)

theorem walkDown_eq_walkLevel0 {l : List Element} {pred : Element → Bool} :
    ∀ (n : Nat) (p : Option Nat), 1 ≤ n →
      ∃ p0, walkDown l pred n p = walkLevel l pred 0 p0 := by
  intro n
  induction n with
  | zero => intro p hp; omega
  | succ n ih =>
    intro p _
    cases Nat.eq_zero_or_pos n with
    | inl h0 =>
      subst h0
      exact ⟨p, rfl⟩
    | inr hpos =>
      exact ih (walkLevel l pred n p) hpos

theorem walkDown_fix {l : List Element} {pred : Element → Bool} {n : Nat}
    (hn : 1 ≤ n) (p : Option Nat) :
    nextAt l 0 (walkDown l pred n p) = none ∨
      ∃ j, nextAt l 0 (walkDown l pred n p) = some j ∧
        pred (l.getD j default) = false := by
  obtain ⟨p0, hp0⟩ := @walkDown_eq_walkLevel0 l pred n p hn
  rw [hp0]
  exact walkLevel_fix p0

/-! ### The walk on a sorted chain finds the boundary position -/

theorem sorted_getD {l : List Element} (hs : Sorted l) {i j : Nat} (hij : i < j)
    (hj : j < l.length) :
    pairLt (l.getD i default) (l.getD j default) = true := by
  have hi : i < l.length := by omega
  rw [List.getD_eq_getElem _ _ hi, List.getD_eq_getElem _ _ hj]
  exact List.pairwise_iff_getElem.1 hs i j hi hj hij

theorem sorted_unique_idx {l : List Element} (hs : Sorted l) {i j : Nat}
    (hi : i < l.length) (hj : j < l.length)
    (hsc : (l.getD i default).Score = (l.getD j default).Score)
    (hk : (l.getD i default).Key = (l.getD j default).Key) : i = j := by
  rcases Nat.lt_trichotomy i j with h | h | h
  · have := sorted_getD hs h hj
    rw [pairLt, hsc, hk] at this
    rw [lexLt_irrefl] at this
    exact absurd this (by simp)
  · exact h
  · have := sorted_getD hs h hi
    rw [pairLt, ← hsc, ← hk] at this
    rw [lexLt_irrefl] at this
    exact absurd this (by simp)

theorem walk_spec {l : List Element} {pred : Element → Bool} {n : Nat}
    (hs : Sorted l)
    (hdc : ∀ a b : Element, pairLt a b = true → pred b = true → pred a = true)
    (hl : ∀ e ∈ l, 1 ≤ e.lvl) (hn : 1 ≤ n) :
    posVal (walkDown l pred n none) ≤ l.length ∧
      (∀ j, j < posVal (walkDown l pred n none) → pred (l.getD j default) = true) ∧
      (posVal (walkDown l pred n none) < l.length →
        pred (l.getD (posVal (walkDown l pred n none)) default) = false) := by
  have hgood : WalkGood l pred (walkDown l pred n none) :=
    walkDown_good n none trivial
  have hfix := @walkDown_fix l pred n hn none
  refine ⟨?_, ?_, ?_⟩
  · cases hw : walkDown l pred n none with
    | none => simp [posVal]
    | some q =>
      rw [hw] at hgood
      simp only [WalkGood] at hgood
      simp only [posVal]
      omega
  · intro j hj
    cases hw : walkDown l pred n none with
    | none => rw [hw] at hj; simp [posVal] at hj
    | some q =>
      rw [hw] at hgood hj
      simp only [WalkGood] at hgood
      simp only [posVal] at hj
      have hjq : j ≤ q := by omega
      rcases Nat.eq_or_lt_of_le hjq with rfl | hlt
      · exact hgood.2
      · exact hdc _ _ (sorted_getD hs hlt hgood.1) hgood.2
  · intro hlt
    rw [nextAt_zero hl, if_pos hlt] at hfix
    rcases hfix with hfix | ⟨j, hj, hpred⟩
    · exact absurd hfix (by simp)
    · have : posVal (walkDown l pred n none) = j := by
        injection hj
      rw [this]
      exact hpred

theorem walk_match_pos {l : List Element} {n : Nat} {s : Int} {k : List Nat}
    (hs : Sorted l) (hl : ∀ e ∈ l, 1 ≤ e.lvl) (hn : 1 ≤ n) {i : Nat}
    (hi : i < l.length) (hsc : (l.getD i default).Score = s)
    (hk : (l.getD i default).Key = k) :
    posVal (walkDown l (fun e => lexLt e.Score e.Key s k) n none) = i := by
  have hdc : ∀ a b : Element, pairLt a b = true →
      lexLt b.Score b.Key s k = true → lexLt a.Score a.Key s k = true :=
    fun a b hab hb => lexLt_trans hab hb
  obtain ⟨hle, hbefore, hat⟩ := walk_spec hs hdc hl hn
  set P := posVal (walkDown l (fun e => lexLt e.Score e.Key s k) n none) with hP
  rcases Nat.lt_trichotomy P i with h | h | h
  · exfalso
    have hPlen : P < l.length := by omega
    have hfalse := hat hPlen
    have := sorted_getD hs h hi
    rw [pairLt, hsc, hk] at this
    rw [this] at hfalse
    exact absurd hfalse (by simp)
  · exact h
  · exfalso
    have := hbefore i h
    rw [hsc, hk, lexLt_irrefl] at this
    exact absurd this (by simp)

/-! ### Characterising `Insert`, `Delete`, `Search` on valid states -/

theorem getD_mem {l : List Element} {i : Nat} (hi : i < l.length) :
    l.getD i default ∈ l := by
  rw [List.getD_eq_getElem _ _ hi]
  exact List.getElem_mem hi

theorem randomLevelAux_ge (coins : List Bool) :
    ∀ level, level ≤ randomLevelAux level coins := by
  induction coins with
  | nil => intro level; simp [randomLevelAux]
  | cons c cs ih =>
    intro level
    simp only [randomLevelAux]
    by_cases h : level < MaxLevel && c
    · rw [if_pos h]
      have := ih (level + 1)
      omega
    · rw [if_neg h]

theorem randomLevel_ge_one (coins : List Bool) : 1 ≤ randomLevel coins :=
  randomLevelAux_ge coins 1

theorem Insert_found {sl : SkipList} (hinv : SLInv sl) {i : Nat} {s : Int}
    {k : List Nat} (hi : i < sl.elems.length)
    (hsc : (sl.elems.getD i default).Score = s)
    (hk : (sl.elems.getD i default).Key = k) (v : List Nat) (coins : List Bool) :
    sl.Insert k v s coins =
      ({ sl with elems := sl.elems.set i { sl.elems.getD i default with Value := v } },
       { sl.elems.getD i default with Value := v }) := by
  obtain ⟨hs, hl, hlev⟩ := hinv
  have hpos := walk_match_pos hs hl hlev hi hsc hk
  have hna : nextAt sl.elems 0
      (walkDown sl.elems (fun e => lexLt e.Score e.Key s k) sl.level none) = some i := by
    rw [nextAt_zero hl, hpos, if_pos hi]
  have hcond : ((sl.elems.getD i default).Score == s &&
      (sl.elems.getD i default).Key == k) = true := by
    rw [hsc, hk]
    simp
  simp only [SkipList.Insert, hna, hcond, if_true]

theorem Insert_notfound {sl : SkipList} {s : Int} {k : List Nat}
    (habs : ∀ e ∈ sl.elems, ¬(e.Score = s ∧ e.Key = k)) (v : List Nat)
    (coins : List Bool) :
    sl.Insert k v s coins =
      sl.insertFresh k v s coins
        (walkDown sl.elems (fun e => lexLt e.Score e.Key s k) sl.level none) := by
  cases hna : nextAt sl.elems 0
      (walkDown sl.elems (fun e => lexLt e.Score e.Key s k) sl.level none) with
  | none => simp only [SkipList.Insert, hna]
  | some c =>
    have hc : c < sl.elems.length := (nextAt_some hna).2.1
    have hcond : ((sl.elems.getD c default).Score == s &&
        (sl.elems.getD c default).Key == k) = false := by
      rw [Bool.eq_false_iff]
      intro hcontra
      simp only [Bool.and_eq_true, beq_iff_eq] at hcontra
      exact habs _ (getD_mem hc) hcontra
    simp only [SkipList.Insert, hna, hcond, Bool.false_eq_true, if_false]

theorem Delete_notfound {sl : SkipList} {s : Int} {k : List Nat}
    (habs : ∀ e ∈ sl.elems, ¬(e.Score = s ∧ e.Key = k)) :
    sl.Delete k s = (sl, false) := by
  cases hna : nextAt sl.elems 0
      (walkDown sl.elems (fun e => lexLt e.Score e.Key s k) sl.level none) with
  | none => simp only [SkipList.Delete, hna]
  | some c =>
    have hc : c < sl.elems.length := (nextAt_some hna).2.1
    have hcond : ((sl.elems.getD c default).Score == s &&
        (sl.elems.getD c default).Key == k) = false := by
      rw [Bool.eq_false_iff]
      intro hcontra
      simp only [Bool.and_eq_true, beq_iff_eq] at hcontra
      exact habs _ (getD_mem hc) hcontra
    simp only [SkipList.Delete, hna, hcond, Bool.false_eq_true, if_false]

theorem Delete_found {sl : SkipList} (hinv : SLInv sl) {i : Nat} {s : Int}
    {k : List Nat} (hi : i < sl.elems.length)
    (hsc : (sl.elems.getD i default).Score = s)
    (hk : (sl.elems.getD i default).Key = k) :
    sl.Delete k s =
      ({ sl with elems := sl.elems.eraseIdx i,
                 level := shrinkLevel (sl.elems.eraseIdx i) sl.level,
                 length := sl.length - 1 }, true) := by
  obtain ⟨hs, hl, hlev⟩ := hinv
  have hpos := walk_match_pos hs hl hlev hi hsc hk
  have hna : nextAt sl.elems 0
      (walkDown sl.elems (fun e => lexLt e.Score e.Key s k) sl.level none) = some i := by
    rw [nextAt_zero hl, hpos, if_pos hi]
  have hcond : ((sl.elems.getD i default).Score == s &&
      (sl.elems.getD i default).Key == k) = true := by
    rw [hsc, hk]
    simp
  simp only [SkipList.Delete, hna, hcond, if_true]

theorem Search_found {sl : SkipList} (hinv : SLInv sl) {i : Nat} {s : Int}
    {k : List Nat} (hi : i < sl.elems.length)
    (hsc : (sl.elems.getD i default).Score = s)
    (hk : (sl.elems.getD i default).Key = k) :
    sl.Search k s = some (sl.elems.getD i default) := by
  obtain ⟨hs, hl, hlev⟩ := hinv
  have hpos := walk_match_pos hs hl hlev hi hsc hk
  have hna : nextAt sl.elems 0
      (walkDown sl.elems (fun e => lexLt e.Score e.Key s k) sl.level none) = some i := by
    rw [nextAt_zero hl, hpos, if_pos hi]
  have hcond : ((sl.elems.getD i default).Score == s &&
      (sl.elems.getD i default).Key == k) = true := by
    rw [hsc, hk]
    simp
  simp only [SkipList.Search, hna, hcond, if_true]

theorem Search_notfound {sl : SkipList} {s : Int} {k : List Nat}
    (habs : ∀ e ∈ sl.elems, ¬(e.Score = s ∧ e.Key = k)) :
    sl.Search k s = none := by
  cases hna : nextAt sl.elems 0
      (walkDown sl.elems (fun e => lexLt e.Score e.Key s k) sl.level none) with
  | none => simp only [SkipList.Search, hna]
  | some c =>
    have hc : c < sl.elems.length := (nextAt_some hna).2.1
    have hcond : ((sl.elems.getD c default).Score == s &&
        (sl.elems.getD c default).Key == k) = false := by
      rw [Bool.eq_false_iff]
      intro hcontra
      simp only [Bool.and_eq_true, beq_iff_eq] at hcontra
      exact habs _ (getD_mem hc) hcontra
    simp only [SkipList.Search, hna, hcond, Bool.false_eq_true, if_false]

/-! ### `Insert` and `Delete` preserve the representation invariant -/

theorem lexLt_of_not {s1 s2 : Int} {k1 k2 : List Nat}
    (h1 : lexLt s1 k1 s2 k2 = false) (hne : ¬(s1 = s2 ∧ k1 = k2)) :
    lexLt s2 k2 s1 k1 = true := by
  cases h2 : lexLt s2 k2 s1 k1 with
  | true => rfl
  | false =>
    obtain ⟨hs, hk⟩ := lexLt_conn h1 h2
    exact absurd ⟨hs, hk⟩ hne

theorem pairwise_insertIdx {α : Type} {R : α → α → Prop} {e : α} :
    ∀ (l : List α) (pos : Nat), pos ≤ l.length → List.Pairwise R l →
      (∀ x ∈ l.take pos, R x e) → (∀ x ∈ l.drop pos, R e x) →
      List.Pairwise R (l.insertIdx pos e) := by
  intro l
  induction l with
  | nil =>
    intro pos hpos _ _ _
    have h0 : pos = 0 := by simpa using hpos
    subst h0
    simp
  | cons x xs ih =>
    intro pos hpos hp hbefore hafter
    cases pos with
    | zero =>
      simp only [List.insertIdx_zero]
      exact List.pairwise_cons.2 ⟨fun y hy => hafter y (by simpa using hy), hp⟩
    | succ p =>
      simp only [List.insertIdx_succ_cons]
      have hple : p ≤ xs.length := by simpa using hpos
      refine List.pairwise_cons.2 ⟨?_, ?_⟩
      · intro y hy
        rcases (List.mem_insertIdx hple).1 hy with rfl | hy
        · exact hbefore x (by simp)
        · exact (List.pairwise_cons.1 hp).1 y hy
      · refine ih p hple (List.pairwise_cons.1 hp).2 ?_ ?_
        · intro y hy
          exact hbefore y (by simpa using Or.inr hy)
        · intro y hy
          exact hafter y (by simpa using hy)

theorem sorted_set_value {l : List Element} (hs : Sorted l) (i : Nat) (v : List Nat) :
    Sorted (l.set i { l.getD i default with Value := v }) := by
  by_cases hi : i < l.length
  · have hlen : (l.set i { l.getD i default with Value := v }).length = l.length := by
      simp
    have hget : ∀ (m : Nat), m < l.length →
        ((l.set i { l.getD i default with Value := v }).getD m default).Score =
            (l.getD m default).Score ∧
          ((l.set i { l.getD i default with Value := v }).getD m default).Key =
            (l.getD m default).Key := by
      intro m hm
      have hm2 : m < (l.set i { l.getD i default with Value := v }).length := by omega
      rw [List.getD_eq_getElem _ _ hm2, List.getD_eq_getElem _ _ hm, List.getElem_set]
      by_cases him : i = m
      · subst him
        rw [if_pos rfl, List.getD_eq_getElem _ _ hm]
        exact ⟨rfl, rfl⟩
      · rw [if_neg him]
        exact ⟨rfl, rfl⟩
    rw [Sorted, List.pairwise_iff_getElem]
    intro a b ha hb hab
    have ha2 : a < l.length := by omega
    have hb2 : b < l.length := by omega
    have hpl := sorted_getD hs hab hb2
    rw [pairLt] at hpl ⊢
    rw [← List.getD_eq_getElem _ default ha, ← List.getD_eq_getElem _ default hb]
    rw [(hget a ha2).1, (hget a ha2).2, (hget b hb2).1, (hget b hb2).2]
    exact hpl
  · rw [List.set_eq_of_length_le (by omega)]
    exact hs

theorem shrinkLevel_ge_one (l : List Element) :
    ∀ n, 1 ≤ n → 1 ≤ shrinkLevel l n := by
  intro n
  induction n with
  | zero => omega
  | succ n ih =>
    intro _
    cases n with
    | zero => simp [shrinkLevel]
    | succ m =>
      simp only [shrinkLevel]
      by_cases h : (findLvl (Nat.succ m) l).isNone
      · rw [if_pos h]
        exact ih (by omega)
      · rw [if_neg h]
        omega

theorem Insert_inv {sl : SkipList} (hinv : SLInv sl) (k v : List Nat) (s : Int)
    (coins : List Bool) : SLInv (sl.Insert k v s coins).1 := by
  obtain ⟨hs, hl, hlev⟩ := hinv
  by_cases hex : ∃ i, ∃ hi : i < sl.elems.length,
      (sl.elems.getD i default).Score = s ∧ (sl.elems.getD i default).Key = k
  · obtain ⟨i, hi, hsc, hk⟩ := hex
    rw [Insert_found ⟨hs, hl, hlev⟩ hi hsc hk v coins]
    refine ⟨sorted_set_value hs i v, ?_, hlev⟩
    intro e he
    rcases List.mem_or_eq_of_mem_set he with he | rfl
    · exact hl e he
    · exact hl (sl.elems.getD i default) (getD_mem hi)
  · have habs : ∀ e ∈ sl.elems, ¬(e.Score = s ∧ e.Key = k) := by
      intro e he hmatch
      obtain ⟨j, hj, rfl⟩ := List.mem_iff_getElem.1 he
      exact hex ⟨j, hj, by
        rw [List.getD_eq_getElem _ _ hj]
        exact ⟨hmatch.1, hmatch.2⟩⟩
    rw [Insert_notfound habs v coins]
    have hdc : ∀ a b : Element, pairLt a b = true →
        (fun e => lexLt e.Score e.Key s k) b = true →
        (fun e => lexLt e.Score e.Key s k) a = true :=
      fun a b hab hb => lexLt_trans hab hb
    obtain ⟨hle, hbefore, hat⟩ :=
      walk_spec (l := sl.elems) (n := sl.level) hs hdc hl hlev
    set pos := posVal
      (walkDown sl.elems (fun e => lexLt e.Score e.Key s k) sl.level none) with hposdef
    have hAfterPos : ∀ j, pos ≤ j → (hj : j < sl.elems.length) →
        lexLt s k (sl.elems.getD j default).Score (sl.elems.getD j default).Key
          = true := by
      intro j hpj hj
      have hpos_lt : pos < sl.elems.length := by omega
      have hbase : lexLt s k (sl.elems.getD pos default).Score
          (sl.elems.getD pos default).Key = true := by
        refine lexLt_of_not (hat hpos_lt) ?_
        intro hmatch
        exact habs _ (getD_mem hpos_lt) hmatch
      rcases Nat.eq_or_lt_of_le hpj with rfl | hlt
      · exact hbase
      · exact lexLt_trans hbase (sorted_getD hs hlt hj)
    simp only [SkipList.insertFresh]
    refine ⟨?_, ?_, ?_⟩
    · refine pairwise_insertIdx sl.elems pos hle hs ?_ ?_
      · intro x hx
        obtain ⟨j, hj, rfl⟩ := List.mem_iff_getElem.1 hx
        have hjlen : j < sl.elems.length := by
          have := List.length_take_le pos sl.elems
          have hjp : j < pos := by
            have : (sl.elems.take pos).length = min pos sl.elems.length := by simp
            omega
          omega
        have hjp : j < pos := by
          have : (sl.elems.take pos).length = min pos sl.elems.length := by simp
          omega
        have := hbefore j hjp
        rw [pairLt, NewElement]
        rw [List.getElem_take]
        rw [← List.getD_eq_getElem _ default hjlen]
        exact this
      · intro x hx
        obtain ⟨j, hj, rfl⟩ := List.mem_iff_getElem.1 hx
        have hjlen : pos + j < sl.elems.length := by
          have : (sl.elems.drop pos).length = sl.elems.length - pos := by simp
          omega
        rw [pairLt, NewElement]
        rw [List.getElem_drop]
        rw [← List.getD_eq_getElem _ default hjlen]
        exact hAfterPos (pos + j) (by omega) hjlen
    · intro e he
      rcases (List.mem_insertIdx hle).1 he with rfl | he
      · simpa [NewElement] using randomLevel_ge_one coins
      · exact hl e he
    · have hrl := randomLevel_ge_one coins
      show 1 ≤ if sl.level < randomLevel coins then randomLevel coins else sl.level
      by_cases hup : sl.level < randomLevel coins
      · rw [if_pos hup]
        omega
      · rw [if_neg hup]
        exact hlev

theorem Delete_inv {sl : SkipList} (hinv : SLInv sl) (k : List Nat) (s : Int) :
    SLInv (sl.Delete k s).1 := by
  obtain ⟨hs, hl, hlev⟩ := hinv
  by_cases hex : ∃ i, ∃ hi : i < sl.elems.length,
      (sl.elems.getD i default).Score = s ∧ (sl.elems.getD i default).Key = k
  · obtain ⟨i, hi, hsc, hk⟩ := hex
    rw [Delete_found ⟨hs, hl, hlev⟩ hi hsc hk]
    refine ⟨?_, ?_, ?_⟩
    · exact hs.sublist (List.eraseIdx_sublist sl.elems i)
    · intro e he
      exact hl e ((List.eraseIdx_sublist sl.elems i).mem he)
    · exact shrinkLevel_ge_one _ sl.level hlev
  · have habs : ∀ e ∈ sl.elems, ¬(e.Score = s ∧ e.Key = k) := by
      intro e he hmatch
      obtain ⟨j, hj, rfl⟩ := List.mem_iff_getElem.1 he
      exact hex ⟨j, hj, by
        rw [List.getD_eq_getElem _ _ hj]
        exact ⟨hmatch.1, hmatch.2⟩⟩
    rw [Delete_notfound habs]
    exact ⟨hs, hl, hlev⟩

theorem SLInv_new : SLInv NewSkipList := by
  refine ⟨List.Pairwise.nil, ?_, ?_⟩ <;> simp [NewSkipList]

theorem applyOps_inv (ops : List SLOp) :
    ∀ sl : SkipList, SLInv sl → SLInv (applyOps ops sl) := by
  induction ops with
  | nil => intro sl h; exact h
  | cons op ops ih =>
    intro sl h
    cases op with
    | ins k v s c => exact ih _ (Insert_inv h k v s c)
    | del k s => exact ih _ (Delete_inv h k s)

/-! ### Searching after inserting; TTL-table facts -/

theorem set_getD_self {α : Type} (d : α) :
    ∀ (l : List α) (i : Nat), l.set i (l.getD i d) = l
  | [], _ => by simp
  | x :: xs, 0 => by simp [List.getD_cons_zero]
  | x :: xs, i + 1 => by
    simp only [List.set_cons_succ, List.getD_cons_succ]
    rw [set_getD_self d xs i]

theorem Insert_then_search {sl : SkipList} (hinv : SLInv sl) (k v : List Nat)
    (s : Int) (coins : List Bool) :
    ∃ e : Element, (sl.Insert k v s coins).1.Search k s = some e ∧
      e.Value = v ∧ e.Score = s ∧ e.Key = k := by
  have hinv2 := Insert_inv hinv k v s coins
  obtain ⟨hs, hl, hlev⟩ := hinv
  by_cases hex : ∃ i, ∃ hi : i < sl.elems.length,
      (sl.elems.getD i default).Score = s ∧ (sl.elems.getD i default).Key = k
  · obtain ⟨i, hi, hsc, hk⟩ := hex
    rw [Insert_found ⟨hs, hl, hlev⟩ hi hsc hk v coins] at hinv2 ⊢
    set x2 := { sl.elems.getD i default with Value := v } with hx2
    have hlen : (sl.elems.set i x2).length = sl.elems.length := by simp
    have hgd : (sl.elems.set i x2).getD i default = x2 := by
      rw [List.getD_eq_getElem _ _ (by omega)]
      exact List.getElem_set_self (by omega)
    have hsc2 : ((sl.elems.set i x2).getD i default).Score = s := by rw [hgd, hx2]; exact hsc
    have hk2 : ((sl.elems.set i x2).getD i default).Key = k := by rw [hgd, hx2]; exact hk
    refine ⟨x2, ?_, rfl, by rw [hx2]; exact hsc, by rw [hx2]; exact hk⟩
    have hi2 : i < ({ sl with elems := sl.elems.set i x2 } : SkipList).elems.length := by
      show i < (sl.elems.set i x2).length
      omega
    have hfind := Search_found hinv2 hi2 hsc2 hk2
    have hgd2 : ({ sl with elems := sl.elems.set i x2 } : SkipList).elems.getD i default
        = x2 := hgd
    rw [hfind, hgd2]
  · have habs : ∀ e ∈ sl.elems, ¬(e.Score = s ∧ e.Key = k) := by
      intro e he hmatch
      obtain ⟨j, hj, rfl⟩ := List.mem_iff_getElem.1 he
      exact hex ⟨j, hj, by
        rw [List.getD_eq_getElem _ _ hj]
        exact ⟨hmatch.1, hmatch.2⟩⟩
    rw [Insert_notfound habs v coins] at hinv2 ⊢
    have hdc : ∀ a b : Element, pairLt a b = true →
        (fun e => lexLt e.Score e.Key s k) b = true →
        (fun e => lexLt e.Score e.Key s k) a = true :=
      fun a b hab hb => lexLt_trans hab hb
    obtain ⟨hle, hbefore, hat⟩ :=
      walk_spec (l := sl.elems) (n := sl.level) hs hdc hl hlev
    set pos := posVal
      (walkDown sl.elems (fun e => lexLt e.Score e.Key s k) sl.level none) with hposdef
    set eNew := NewElement k v s (randomLevel coins) with heNew
    have hlen2 : (sl.elems.insertIdx pos eNew).length = sl.elems.length + 1 := by
      rw [List.length_insertIdx _ _ hle]
    have hgd : (sl.elems.insertIdx pos eNew).getD pos default = eNew := by
      rw [List.getD_eq_getElem _ _ (by omega)]
      exact List.getElem_insertIdx_self _ _ _ hle
    refine ⟨eNew, ?_, rfl, rfl, rfl⟩
    have hi2 : pos <
        (sl.insertFresh k v s coins
          (walkDown sl.elems (fun e => lexLt e.Score e.Key s k) sl.level none)).1.elems.length := by
      show pos < (sl.elems.insertIdx pos eNew).length
      omega
    have hgd2 : (sl.insertFresh k v s coins
        (walkDown sl.elems (fun e => lexLt e.Score e.Key s k) sl.level none)).1.elems.getD
          pos default = eNew := hgd
    have hsc3 : ((sl.insertFresh k v s coins
        (walkDown sl.elems (fun e => lexLt e.Score e.Key s k) sl.level none)).1.elems.getD
          pos default).Score = s := by rw [hgd2]; rfl
    have hk3 : ((sl.insertFresh k v s coins
        (walkDown sl.elems (fun e => lexLt e.Score e.Key s k) sl.level none)).1.elems.getD
          pos default).Key = k := by rw [hgd2]; rfl
    have hfind := Search_found hinv2 hi2 hsc3 hk3
    rw [hfind, hgd2]

theorem ttlLookup_erase (m : TTLTable) (k : List Nat) :
    ttlLookup (ttlErase m k) k = none := by
  rw [ttlLookup, ttlErase]
  rw [List.find?_eq_none.2]
  · rfl
  · intro x hx
    have := (List.mem_filter.1 hx).2
    simp only [Bool.not_eq_true'] at this
    simp [this]

theorem ttlLookup_set (m : TTLTable) (k : List Nat) (t : Int) :
    ttlLookup (ttlSet m k t) k = some t := by
  rw [ttlLookup, ttlSet]
  rw [List.find?_append]
  rw [ttlErase, List.find?_eq_none.2]
  · simp
  · intro x hx
    have := (List.mem_filter.1 hx).2
    simp only [Bool.not_eq_true'] at this
    simp [this]

/-! ### The `Range` collection loop and the `Scan` traversal loop -/

theorem rangeLoop_nonpos (maxS : Int) {limit : Int} (hlim : limit ≤ 0) :
    ∀ (l : List Element) (cnt : Nat),
      rangeLoop maxS limit l cnt = l.takeWhile (fun e => decide (e.Score ≤ maxS)) := by
  intro l
  induction l with
  | nil => intro cnt; rfl
  | cons x xs ih =>
    intro cnt
    by_cases hx : x.Score ≤ maxS
    · have hxd : decide (x.Score ≤ maxS) = true := by simpa using hx
      have hguard : (decide (0 < limit) && decide (limit ≤ (cnt : Int) + 1)) = false := by
        have hng : ¬ (0 : Int) < limit := by omega
        simp [hng]
      simp only [rangeLoop, List.takeWhile_cons, hxd, if_true, hguard,
        Bool.false_eq_true, if_false]
      rw [ih (cnt + 1)]
    · have hxd : decide (x.Score ≤ maxS) = false := by simpa using hx
      simp only [rangeLoop, List.takeWhile_cons, hxd, Bool.false_eq_true, if_false]

theorem rangeLoop_pos (maxS : Int) {limit : Int} (hlim : 0 < limit) :
    ∀ (l : List Element) (cnt : Nat), (cnt : Int) < limit →
      rangeLoop maxS limit l cnt =
        (l.takeWhile (fun e => decide (e.Score ≤ maxS))).take (limit.toNat - cnt) := by
  intro l
  induction l with
  | nil => intro cnt _; simp [rangeLoop]
  | cons x xs ih =>
    intro cnt hcnt
    by_cases hx : x.Score ≤ maxS
    · have hxd : decide (x.Score ≤ maxS) = true := by simpa using hx
      by_cases hstop : limit ≤ (cnt : Int) + 1
      · have hguard : (decide (0 < limit) && decide (limit ≤ (cnt : Int) + 1)) = true := by
          simp [hlim, hstop]
        have htake : limit.toNat - cnt = 1 := by omega
        simp only [rangeLoop, List.takeWhile_cons, hxd, if_true, hguard, htake,
          List.take_succ_cons, List.take_zero]
      · have hguard : (decide (0 < limit) && decide (limit ≤ (cnt : Int) + 1)) = false := by
          simp only [Bool.and_eq_false_iff, decide_eq_false_iff_not]
          right
          omega
        have htake : limit.toNat - cnt = (limit.toNat - (cnt + 1)) + 1 := by omega
        simp only [rangeLoop, List.takeWhile_cons, hxd, if_true, hguard,
          Bool.false_eq_true, if_false, htake, List.take_succ_cons]
        rw [ih (cnt + 1) (by push_cast; omega)]
    · have hxd : decide (x.Score ≤ maxS) = false := by simpa using hx
      simp only [rangeLoop, List.takeWhile_cons, hxd, Bool.false_eq_true, if_false,
        List.take_nil]

theorem filter_le_eq_takeWhile {l : List Element} (hs : Sorted l) (hi : Int) :
    l.filter (fun e => decide (e.Score ≤ hi)) =
      l.takeWhile (fun e => decide (e.Score ≤ hi)) := by
  induction l with
  | nil => rfl
  | cons x xs ih =>
    obtain ⟨hhead, htail⟩ := List.pairwise_cons.1 hs
    by_cases hx : x.Score ≤ hi
    · have hxd : decide (x.Score ≤ hi) = true := by simpa using hx
      simp only [List.filter_cons, List.takeWhile_cons, hxd, if_true]
      rw [ih htail]
    · have hxd : decide (x.Score ≤ hi) = false := by simpa using hx
      simp only [List.filter_cons, List.takeWhile_cons, hxd, Bool.false_eq_true, if_false]
      refine List.filter_eq_nil_iff.2 ?_
      intro e he
      have hscore : x.Score ≤ e.Score := lexLt_score_le (hhead e he)
      simp only [decide_eq_true_eq]
      omega

theorem sorted_range_decompose {l : List Element} (hs : Sorted l)
    (hl : ∀ e ∈ l, 1 ≤ e.lvl) {n : Nat} (hn : 1 ≤ n) (lo hi : Int) :
    (levelChain (l.drop
        (posVal (walkDown l (fun e => decide (e.Score < lo)) n none))) 0).takeWhile
        (fun e => decide (e.Score ≤ hi)) =
      l.filter (fun e => decide (lo ≤ e.Score) && decide (e.Score ≤ hi)) := by
  have hdc : ∀ a b : Element, pairLt a b = true →
      (fun e => decide (e.Score < lo)) b = true →
      (fun e => decide (e.Score < lo)) a = true := by
    intro a b hab hb
    have := lexLt_score_le hab
    simp only [decide_eq_true_eq] at hb ⊢
    omega
  obtain ⟨hle, hbefore, hat⟩ := walk_spec (l := l) (n := n) hs hdc hl hn
  set pos := posVal (walkDown l (fun e => decide (e.Score < lo)) n none) with hpos
  have hchain : levelChain (l.drop pos) 0 = l.drop pos := by
    refine List.filter_eq_self.2 ?_
    intro e he
    have := hl e (List.mem_of_mem_drop he)
    simp only [decide_eq_true_eq]
    omega
  rw [hchain]
  have hdropsorted : Sorted (l.drop pos) := hs.sublist (List.drop_sublist pos l)
  have hdroplo : ∀ e ∈ l.drop pos, lo ≤ e.Score := by
    intro e he
    obtain ⟨j, hj, hget⟩ := List.mem_iff_getElem.1 he
    have hjlen : pos + j < l.length := by
      have : (l.drop pos).length = l.length - pos := by simp
      omega
    have hposlen : pos < l.length := by omega
    have hbase : ¬ (l.getD pos default).Score < lo := by
      have := hat hposlen
      simpa using this
    have hstep : (l.getD pos default).Score ≤ (l.getD (pos + j) default).Score := by
      cases Nat.eq_zero_or_pos j with
      | inl h0 => subst h0; simp
      | inr hjpos =>
        exact lexLt_score_le (sorted_getD hs (by omega) hjlen)
    have hgete : e = l.getD (pos + j) default := by
      rw [← hget, List.getD_eq_getElem _ _ hjlen]
      rw [← List.getElem_drop]
    have hesc : e.Score = (l.getD (pos + j) default).Score := by rw [hgete]
    omega
  conv_rhs => rw [← List.take_append_drop pos l]
  rw [List.filter_append]
  have htake_nil : (l.take pos).filter
      (fun e => decide (lo ≤ e.Score) && decide (e.Score ≤ hi)) = [] := by
    refine List.filter_eq_nil_iff.2 ?_
    intro e he
    obtain ⟨j, hj, hget⟩ := List.mem_iff_getElem.1 he
    have hjpos : j < pos := by
      have : (l.take pos).length = min pos l.length := by simp
      omega
    have hjlen : j < l.length := by
      have : (l.take pos).length = min pos l.length := by simp
      omega
    have hlt := hbefore j hjpos
    have hgete : e = l.getD j default := by
      rw [← hget, List.getD_eq_getElem _ _ hjlen]
      rw [List.getElem_take]
    simp only [decide_eq_true_eq] at hlt
    simp only [Bool.and_eq_true, decide_eq_true_eq, not_and]
    intro hlo
    rw [hgete] at hlo
    omega
  rw [htake_nil, List.nil_append]
  have hfilter_eq : (l.drop pos).filter
      (fun e => decide (lo ≤ e.Score) && decide (e.Score ≤ hi)) =
      (l.drop pos).filter (fun e => decide (e.Score ≤ hi)) := by
    refine List.filter_congr ?_
    intro e he
    have := hdroplo e he
    simp [this]
  rw [hfilter_eq, filter_le_eq_takeWhile hdropsorted]

theorem Range_spec (sl : SkipList) (lo hi lim : Int) (hinv : SLInv sl) :
    sl.Range lo hi lim =
      if 0 < lim then
        (sl.elems.filter
          (fun e => decide (lo ≤ e.Score) && decide (e.Score ≤ hi))).take lim.toNat
      else
        sl.elems.filter (fun e => decide (lo ≤ e.Score) && decide (e.Score ≤ hi)) := by
  obtain ⟨hs, hl, hlev⟩ := hinv
  show rangeLoop hi lim
      (levelChain (sl.elems.drop
        (posVal (walkDown sl.elems (fun e => decide (e.Score < lo)) sl.level none))) 0) 0 = _
  by_cases hlim : 0 < lim
  · rw [rangeLoop_pos hi hlim _ 0 (by push_cast; omega)]
    rw [sorted_range_decompose hs hl hlev lo hi]
    rw [if_pos hlim, Nat.sub_zero]
  · have hlim2 : lim ≤ 0 := by omega
    rw [rangeLoop_nonpos hi hlim2 _ 0]
    rw [sorted_range_decompose hs hl hlev lo hi]
    rw [if_neg hlim]

theorem scanLoop_nonpos {limit : Int} (hlim : limit ≤ 0) (ttl : TTLTable)
    (pfx : List Nat) (now : Int) :
    ∀ (l : List Element) (cnt : Nat),
      scanLoop ttl pfx limit now l cnt =
        (l.filter (fun e => bytesHasPref pfx e.Key && ttlLive ttl e.Key now)).map
          (fun e => (e.Key, e.Value)) := by
  intro l
  induction l with
  | nil => intro cnt; rfl
  | cons x xs ih =>
    intro cnt
    have hguard : (decide (limit ≤ 0) || decide ((cnt : Int) < limit)) = true := by
      simp [hlim]
    by_cases hp : bytesHasPref pfx x.Key = true
    · by_cases hlive : ttlLive ttl x.Key now = true
      · have hfc : List.filter (fun e => bytesHasPref pfx e.Key && ttlLive ttl e.Key now)
            (x :: xs) =
            x :: List.filter (fun e => bytesHasPref pfx e.Key && ttlLive ttl e.Key now) xs := by
          simp [List.filter_cons, hp, hlive]
        rw [hfc, List.map_cons]
        simp only [scanLoop, hguard, if_true, hp, hlive]
        rw [ih (cnt + 1)]
      · have hlive2 : ttlLive ttl x.Key now = false := by simpa using hlive
        have hfc : List.filter (fun e => bytesHasPref pfx e.Key && ttlLive ttl e.Key now)
            (x :: xs) =
            List.filter (fun e => bytesHasPref pfx e.Key && ttlLive ttl e.Key now) xs := by
          simp [List.filter_cons, hlive2]
        rw [hfc]
        simp only [scanLoop, hguard, if_true, hp, hlive2, Bool.false_eq_true, if_false]
        exact ih cnt
    · have hp2 : bytesHasPref pfx x.Key = false := by simpa using hp
      have hfc : List.filter (fun e => bytesHasPref pfx e.Key && ttlLive ttl e.Key now)
          (x :: xs) =
          List.filter (fun e => bytesHasPref pfx e.Key && ttlLive ttl e.Key now) xs := by
        simp [List.filter_cons, hp2]
      rw [hfc]
      simp only [scanLoop, hguard, if_true, hp2, Bool.false_eq_true, if_false]
      exact ih cnt

theorem scanLoop_pos {limit : Int} (hlim : 0 < limit) (ttl : TTLTable)
    (pfx : List Nat) (now : Int) :
    ∀ (l : List Element) (cnt : Nat),
      scanLoop ttl pfx limit now l cnt =
        ((l.filter (fun e => bytesHasPref pfx e.Key && ttlLive ttl e.Key now)).map
          (fun e => (e.Key, e.Value))).take (limit.toNat - cnt) := by
  intro l
  induction l with
  | nil => intro cnt; simp [scanLoop]
  | cons x xs ih =>
    intro cnt
    by_cases hcnt : (cnt : Int) < limit
    · have hguard : (decide (limit ≤ 0) || decide ((cnt : Int) < limit)) = true := by
        simp [hcnt]
      by_cases hp : bytesHasPref pfx x.Key = true
      · by_cases hlive : ttlLive ttl x.Key now = true
        · have hfc : List.filter (fun e => bytesHasPref pfx e.Key && ttlLive ttl e.Key now)
              (x :: xs) =
              x :: List.filter (fun e => bytesHasPref pfx e.Key && ttlLive ttl e.Key now) xs := by
            simp [List.filter_cons, hp, hlive]
          have htake : limit.toNat - cnt = (limit.toNat - (cnt + 1)) + 1 := by omega
          rw [hfc, List.map_cons, htake, List.take_succ_cons]
          simp only [scanLoop, hguard, if_true, hp, hlive]
          rw [ih (cnt + 1)]
        · have hlive2 : ttlLive ttl x.Key now = false := by simpa using hlive
          have hfc : List.filter (fun e => bytesHasPref pfx e.Key && ttlLive ttl e.Key now)
              (x :: xs) =
              List.filter (fun e => bytesHasPref pfx e.Key && ttlLive ttl e.Key now) xs := by
            simp [List.filter_cons, hlive2]
          rw [hfc]
          simp only [scanLoop, hguard, if_true, hp, hlive2, Bool.false_eq_true, if_false]
          exact ih cnt
      · have hp2 : bytesHasPref pfx x.Key = false := by simpa using hp
        have hfc : List.filter (fun e => bytesHasPref pfx e.Key && ttlLive ttl e.Key now)
            (x :: xs) =
            List.filter (fun e => bytesHasPref pfx e.Key && ttlLive ttl e.Key now) xs := by
          simp [List.filter_cons, hp2]
        rw [hfc]
        simp only [scanLoop, hguard, if_true, hp2, Bool.false_eq_true, if_false]
        exact ih cnt
    · have hguard : (decide (limit ≤ 0) || decide ((cnt : Int) < limit)) = false := by
        simp only [Bool.or_eq_false_iff, decide_eq_false_iff_not]
        omega
      have htake : limit.toNat - cnt = 0 := by omega
      rw [htake, List.take_zero]
      simp only [scanLoop, hguard, Bool.false_eq_true, if_false]

theorem set_map_getD {α β : Type} [Inhabited α] (l : List α) (f : α → β) (i : Nat) :
    (l.map f).set i (f (l.getD i default)) = l.map f := by
  have h1 : f (l.getD i default) = (l.map f).getD i (f default) :=
    (List.getD_map l default f).symm
  rw [h1, set_getD_self]

/-! ### The claims -/

/-- C1: for every key and value, calling `Set(key, value)` on the store and
then `Get(key)` (with no intervening operation) returns `value` with
found = true (no error, no lazy-expiry delete spawned). -/
theorem claim1_set_get_roundtrip (s0 : SkiplistKVStore) (key value : List Nat)
    (coins : List Bool) (now : Int) (hinv : SLInv s0.data) :
    (s0.Set key value coins).Get key now = (s0.Set key value coins, some value, false) := by
  have hlook : ttlLookup (s0.Set key value coins).ttlData key = none :=
    ttlLookup_erase s0.ttlData key
  obtain ⟨e, hse, hv, _, _⟩ := Insert_then_search hinv key value (storeScore key) coins
  have hsearch : (s0.Set key value coins).data.Search key (storeScore key) = some e := hse
  simp only [SkiplistKVStore.Get, hlook, hsearch, hv]

/-- C2: after every sequence of `Insert` and `Delete` operations on a fresh
skip list, the level-0 chain is strictly increasing in `(score, key)`, and
every element linked at a level `L` is linked at every level below `L`. -/
theorem claim2_ordering_invariant (ops : List SLOp) :
    List.Pairwise (fun a b => pairLt a b = true)
      (levelChain (applyOps ops NewSkipList).elems 0) ∧
    (∀ (L lo : Nat) (e : Element), lo ≤ L →
      e ∈ levelChain (applyOps ops NewSkipList).elems L →
      e ∈ levelChain (applyOps ops NewSkipList).elems lo) := by
  have hinv := applyOps_inv ops NewSkipList SLInv_new
  constructor
  · exact hinv.1.filter _
  · intro L lo e hle he
    rw [levelChain, List.mem_filter] at he ⊢
    refine ⟨he.1, ?_⟩
    have h2 := he.2
    simp only [decide_eq_true_eq] at h2 ⊢
    omega

/-- C3: if the key has a TTL entry whose expiry instant has passed at call
time, `Get` returns not-found immediately and spawns a fire-and-forget
asynchronous delete; the store it leaves behind synchronously is unchanged
(the skip-list element is not removed by `Get` itself). -/
theorem claim3_lazy_expiry (s0 : SkiplistKVStore) (key : List Nat) (now expiry : Int)
    (hlook : ttlLookup s0.ttlData key = some expiry) (hexp : expiry < now) :
    s0.Get key now = (s0, none, true) := by
  simp only [SkiplistKVStore.Get, hlook, if_pos hexp]

/-- C4: if an element with exactly the pair `(score, key)` is present,
`Insert` overwrites that element's value in place and returns it; the
length and level counters, the head, and the whole link structure (the
`(key, score, level)` sequence of the chain) are unchanged. -/
theorem claim4_insert_overwrite (sl : SkipList) (key value : List Nat) (score : Int)
    (coins : List Bool) (hinv : SLInv sl) (i : Nat) (hi : i < sl.elems.length)
    (hsc : (sl.elems.getD i default).Score = score)
    (hk : (sl.elems.getD i default).Key = key) :
    (sl.Insert key value score coins).1.elems =
        sl.elems.set i { sl.elems.getD i default with Value := value } ∧
      (sl.Insert key value score coins).2 =
        { sl.elems.getD i default with Value := value } ∧
      (sl.Insert key value score coins).1.length = sl.length ∧
      (sl.Insert key value score coins).1.level = sl.level ∧
      (sl.Insert key value score coins).1.head = sl.head ∧
      (sl.Insert key value score coins).1.elems.map (fun e => (e.Key, e.Score, e.lvl)) =
        sl.elems.map (fun e => (e.Key, e.Score, e.lvl)) := by
  rw [Insert_found hinv hi hsc hk value coins]
  refine ⟨rfl, rfl, rfl, rfl, rfl, ?_⟩
  show (sl.elems.set i { sl.elems.getD i default with Value := value }).map
      (fun e => (e.Key, e.Score, e.lvl)) = _
  rw [List.map_set]
  exact set_map_getD sl.elems (fun e => (e.Key, e.Score, e.lvl)) i

/-- C5: deleting a key that is absent from the skip list returns `false`,
does not mutate the skip list, and leaves `Size` unchanged. -/
theorem claim5_delete_absent (s0 : SkiplistKVStore) (key : List Nat)
    (habs : ∀ e ∈ s0.data.elems, ¬(e.Score = storeScore key ∧ e.Key = key)) :
    (s0.Delete key).1.data = s0.data ∧ (s0.Delete key).2 = false ∧
      (s0.Delete key).1.Size = s0.Size := by
  have h := Delete_notfound habs
  refine ⟨?_, ?_, ?_⟩ <;>
    simp [SkiplistKVStore.Delete, h, SkiplistKVStore.Size, SkipList.Length]

/-- C6: `Range(minScore, maxScore, limit)` returns exactly the elements with
score in `[minScore, maxScore]`, in ascending `(score, key)` order, truncated
to `limit` elements when `limit` is positive (the engine state is read-only
for `Range`, which returns a materialized list). -/
theorem claim6_range_spec (sl : SkipList) (minScore maxScore limit : Int)
    (hinv : SLInv sl) :
    sl.Range minScore maxScore limit =
        (if 0 < limit then
          (sl.elems.filter
            (fun e => decide (minScore ≤ e.Score) && decide (e.Score ≤ maxScore))).take
              limit.toNat
        else sl.elems.filter
            (fun e => decide (minScore ≤ e.Score) && decide (e.Score ≤ maxScore))) ∧
      List.Pairwise (fun a b => pairLt a b = true) (sl.Range minScore maxScore limit) := by
  refine ⟨Range_spec sl minScore maxScore limit hinv, ?_⟩
  rw [Range_spec sl minScore maxScore limit hinv]
  by_cases h : 0 < limit
  · rw [if_pos h]
    exact hinv.1.sublist ((List.take_sublist _ _).trans (List.filter_sublist _))
  · rw [if_neg h]
    exact hinv.1.sublist (List.filter_sublist _)

/-- C7: plain `Set` removes any TTL entry for the key (even one recorded by
an earlier `SetWithTTL`), so a subsequent `GetTTL` reports present = false. -/
theorem claim7_set_clears_ttl (s0 : SkiplistKVStore) (key value : List Nat)
    (coins : List Bool) (now : Int) :
    ttlLookup (s0.Set key value coins).ttlData key = none ∧
      (s0.Set key value coins).GetTTL key now = (s0.Set key value coins, 0, false) := by
  have h : ttlLookup (s0.Set key value coins).ttlData key = none :=
    ttlLookup_erase s0.ttlData key
  exact ⟨h, by simp only [SkiplistKVStore.GetTTL, h]⟩

/-- C8: `Scan(prefix, limit)` returns exactly the live (TTL not passed)
entries whose key starts with the byte prefix, in traversal order, truncated
to `limit` entries when positive and unlimited when `limit = 0`; in
particular, after inserting "user:1", "user:2" and "order:1", scanning with
prefix "user:" and limit 0 yields exactly the two user entries. -/
theorem claim8_scan_spec :
    (∀ (s0 : SkiplistKVStore) (pfx : List Nat) (limit now : Int),
      s0.Scan pfx limit now =
        if 0 < limit then
          (((levelChain s0.data.elems 0).filter
            (fun e => bytesHasPref pfx e.Key && ttlLive s0.ttlData e.Key now)).map
              (fun e => (e.Key, e.Value))).take limit.toNat
        else ((levelChain s0.data.elems 0).filter
            (fun e => bytesHasPref pfx e.Key && ttlLive s0.ttlData e.Key now)).map
              (fun e => (e.Key, e.Value))) ∧
    ((((NewSkiplistKVStore.Set [117, 115, 101, 114, 58, 49] [88] []).Set
        [117, 115, 101, 114, 58, 50] [89] []).Set
          [111, 114, 100, 101, 114, 58, 49] [90] []).Scan
            [117, 115, 101, 114, 58] 0 0).length = 2 ∧
    ([117, 115, 101, 114, 58, 49], [88]) ∈
      (((NewSkiplistKVStore.Set [117, 115, 101, 114, 58, 49] [88] []).Set
        [117, 115, 101, 114, 58, 50] [89] []).Set
          [111, 114, 100, 101, 114, 58, 49] [90] []).Scan [117, 115, 101, 114, 58] 0 0 ∧
    ([117, 115, 101, 114, 58, 50], [89]) ∈
      (((NewSkiplistKVStore.Set [117, 115, 101, 114, 58, 49] [88] []).Set
        [117, 115, 101, 114, 58, 50] [89] []).Set
          [111, 114, 100, 101, 114, 58, 49] [90] []).Scan [117, 115, 101, 114, 58] 0 0 := by
  refine ⟨?_, by decide, by decide, by decide⟩
  intro s0 pfx limit now
  show scanLoop s0.ttlData pfx limit now (levelChain s0.data.elems 0) 0 = _
  by_cases h : 0 < limit
  · rw [scanLoop_pos h s0.ttlData pfx now (levelChain s0.data.elems 0) 0, if_pos h,
      Nat.sub_zero]
  · rw [scanLoop_nonpos (by omega) s0.ttlData pfx now (levelChain s0.data.elems 0) 0,
      if_neg h]

/-- C9 (as stated, refuted): the claim says the head sentinel's score is
strictly less than every score any real element can have; but the engine
accepts arbitrary scores, and inserting with score `-2` yields a real
element whose score is below the head's stored score `-1`. -/
theorem claim9_counterexample :
    (NewSkipList.Insert [0] [0] (-2) []).1.elems.map Element.Score = [-2] ∧
      ¬ NewSkipList.head.Score < -2 := by
  constructor
  · rfl
  · decide

/-- C9 (amended): a newly constructed skip list owns a sentinel head whose
score is the finite value `-1` — strictly below every store-derived score
`float64(hashBytes(key)) ≥ 0`, though not below arbitrary caller-supplied
scores — and the head participates in the maximum possible level,
`MaxLevel = 32`. -/
theorem claim9_head_sentinel :
    NewSkipList.head.Score = -1 ∧ NewSkipList.head.lvl = MaxLevel ∧ MaxLevel = 32 ∧
      ∀ key : List Nat, NewSkipList.head.Score < storeScore key := by
  refine ⟨rfl, rfl, rfl, ?_⟩
  intro key
  show (-1 : Int) < (hashBytes key : Int)
  have h : (0 : Int) ≤ (hashBytes key : Int) := Int.natCast_nonneg _
  omega

/-- C10: `GetTTL` never mutates the store — also for a key whose TTL has
already passed it returns `(0, false)` without deleting the skip-list
element or the stale TTL-table entry. -/
theorem claim10_getttl_no_mutation (s0 : SkiplistKVStore) (key : List Nat) (now : Int) :
    (s0.GetTTL key now).1 = s0 ∧
      (ttlLookup s0.ttlData key = none → s0.GetTTL key now = (s0, 0, false)) ∧
      (∀ expiry, ttlLookup s0.ttlData key = some expiry → expiry ≤ now →
        s0.GetTTL key now = (s0, 0, false)) := by
  refine ⟨?_, ?_, ?_⟩
  · cases hl : ttlLookup s0.ttlData key with
    | none => simp [SkiplistKVStore.GetTTL, hl]
    | some expiry =>
      by_cases h : expiry - now ≤ 0 <;> simp [SkiplistKVStore.GetTTL, hl, h]
  · intro h
    simp [SkiplistKVStore.GetTTL, h]
  · intro expiry h hle
    simp [SkiplistKVStore.GetTTL, h, show expiry - now ≤ 0 by omega]

/-! ### Concrete instantiations of the hypothesis-bearing claims -/

theorem claim1_witness :
    SLInv NewSkiplistKVStore.data ∧
      (NewSkiplistKVStore.Set [1] [2] []).Get [1] 0 =
        (NewSkiplistKVStore.Set [1] [2] [], some [2], false) :=
  ⟨by decide, claim1_set_get_roundtrip NewSkiplistKVStore [1] [2] [] 0 (by decide)⟩

theorem claim2_witness :
    List.Pairwise (fun a b => pairLt a b = true)
      (levelChain (applyOps [SLOp.ins [5] [7] 3 [true]] NewSkipList).elems 0) ∧
    ({ Key := [5], Value := [7], Score := 3, lvl := 2 } : Element) ∈
      levelChain (applyOps [SLOp.ins [5] [7] 3 [true]] NewSkipList).elems 0 :=
  ⟨(claim2_ordering_invariant [SLOp.ins [5] [7] 3 [true]]).1,
   (claim2_ordering_invariant [SLOp.ins [5] [7] 3 [true]]).2 1 0
     { Key := [5], Value := [7], Score := 3, lvl := 2 } (by decide) (by decide)⟩

theorem claim3_witness :
    ttlLookup sampleTTLStore.ttlData [1] = some 5 ∧ (5 : Int) < 10 ∧
      sampleTTLStore.Get [1] 10 = (sampleTTLStore, none, true) :=
  ⟨by decide, by decide, claim3_lazy_expiry sampleTTLStore [1] 10 5 (by decide) (by decide)⟩

theorem claim4_witness :
    SLInv sampleList1 ∧
      (sampleList1.Insert [1] [9] 4 []).2 =
        { Key := [1], Value := [9], Score := 4, lvl := 1 } :=
  ⟨by decide,
   (claim4_insert_overwrite sampleList1 [1] [9] 4 [] (by decide) 0 (by decide)
     (by decide) (by decide)).2.1⟩

theorem claim5_witness :
    (∀ e ∈ NewSkiplistKVStore.data.elems, ¬(e.Score = storeScore [3] ∧ e.Key = [3])) ∧
      (NewSkiplistKVStore.Delete [3]).2 = false :=
  ⟨by decide, (claim5_delete_absent NewSkiplistKVStore [3] (by decide)).2.1⟩

theorem claim6_witness :
    SLInv sampleList2 ∧
      (sampleList2.Range 3 9 0 =
          (if (0 : Int) < 0 then
            (sampleList2.elems.filter
              (fun e => decide ((3 : Int) ≤ e.Score) && decide (e.Score ≤ 9))).take
                (0 : Int).toNat
          else sampleList2.elems.filter
              (fun e => decide ((3 : Int) ≤ e.Score) && decide (e.Score ≤ 9))) ∧
        List.Pairwise (fun a b => pairLt a b = true) (sampleList2.Range 3 9 0)) :=
  ⟨by decide, claim6_range_spec sampleList2 3 9 0 (by decide)⟩

theorem claim10_witness :
    (sampleTTLStore.GetTTL [1] 10).1 = sampleTTLStore ∧
      sampleTTLStore.GetTTL [1] 10 = (sampleTTLStore, 0, false) :=
  ⟨(claim10_getttl_no_mutation sampleTTLStore [1] 10).1,
   (claim10_getttl_no_mutation sampleTTLStore [1] 10).2.2 5 (by decide) (by decide)⟩
